import Mathlib

/-!
Verification of the identity-resolution engine in the `mapleaurum` repository
(`src/supabase/mapping_script.py`, the "strict" variant, modelled in namespace
`MS1`, and `src/supabase/mapping_script2.py`, the "extended" variant, modelled
in namespace `MS2`).

Python strings are embedded as lists of Unicode codepoints (`PyStr`), with the
character classes (`\w`, `\s`, `str.upper`, `str.lower`) modelled over ASCII,
which covers all data the scripts process.  Each regex the scripts use is
anchored or otherwise simple enough to admit a direct recursive translation;
the translation of each one is documented next to its definition.
`fuzzywuzzy.fuzz.token_sort_ratio` is a third-party scorer (a collaborator in
the spec's terms) and is abstracted as an arbitrary function
`score : PyStr → PyStr → Nat`; `fuzzywuzzy.process.extractOne` (first maximum
wins, score cutoff) is modelled concretely.
-/

/-- A Python string, as its list of codepoints. -/
abbrev PyStr := List Nat

/-- Encode a Lean string literal as a `PyStr` (used for concrete inputs). -/
def str2c (s : String) : PyStr := s.data.map Char.toNat

/-- Python `\s` / `str.strip` whitespace, ASCII part: space, tab, LF, VT, FF, CR. -/
def isWs (n : Nat) : Bool := n == 32 || n == 9 || n == 10 || n == 11 || n == 12 || n == 13

/-- Python regex `\w` over ASCII: `[A-Za-z0-9_]`. -/
def isWordC (n : Nat) : Bool :=
  (48 ≤ n && n ≤ 57) || (65 ≤ n && n ≤ 90) || (97 ≤ n && n ≤ 122) || n == 95

/-- `str.upper` on one ASCII codepoint. -/
def upperC (n : Nat) : Nat := if 97 ≤ n && n ≤ 122 then n - 32 else n

/-- `str.lower` on one ASCII codepoint. -/
def lowerC (n : Nat) : Nat := if 65 ≤ n && n ≤ 90 then n + 32 else n

/-- `str.lstrip()`. -/
def lstripP (s : PyStr) : PyStr := s.dropWhile isWs

/-- `str.rstrip()`. -/
def rstripP (s : PyStr) : PyStr := (s.reverse.dropWhile isWs).reverse

/-- `str.strip()`. -/
def stripP (s : PyStr) : PyStr := rstripP (lstripP s)

/-- `re.sub(r'\s+', ' ', s)`: every maximal whitespace run becomes one space. -/
def collapseWs : PyStr → PyStr
  | [] => []
  | [c] => if isWs c then [32] else [c]
  | c1 :: c2 :: rest =>
    if isWs c1 && isWs c2 then collapseWs (c2 :: rest)
    else (if isWs c1 then 32 else c1) :: collapseWs (c2 :: rest)

/-- `re.findall(r'\\(([^)]+)\\)', s)` and `re.sub(r'\\([^)]+\\)', '', s)` share one
left-to-right scan: at an unconsumed `(` the pattern matches iff at least one
non-`)` character is followed by a `)` (the greedy `[^)]+` stops at the first
`)`); on a match the scanner resumes after that `)`, otherwise the `(` is
literal and scanning resumes at the next character.  The scan is implemented
as a single pass with an accumulator holding the characters read since an
open `(` (`none` = not inside a candidate group). -/
def parenSegmentsAux : Option PyStr → PyStr → List PyStr
  | _, [] => []
  | none, c :: rest =>
    if c = 40 then parenSegmentsAux (some []) rest else parenSegmentsAux none rest
  | some b, c :: rest =>
    if c = 41 then
      if b = [] then parenSegmentsAux none rest
      else b :: parenSegmentsAux none rest
    else parenSegmentsAux (some (b ++ [c])) rest

/-- `re.findall(r'\\(([^)]+)\\)', s)`: the contents of each parenthesised
group. -/
def parenSegments (l : PyStr) : List PyStr := parenSegmentsAux none l

/-- The companion scan for `re.sub`: matched groups are dropped, everything
else (including an unmatched `(` with whatever followed it) is kept. -/
def parenRemoveAux : Option PyStr → PyStr → PyStr
  | none, [] => []
  | some b, [] => 40 :: b
  | none, c :: rest =>
    if c = 40 then parenRemoveAux (some []) rest else c :: parenRemoveAux none rest
  | some b, c :: rest =>
    if c = 41 then
      if b = [] then 40 :: 41 :: parenRemoveAux none rest
      else parenRemoveAux none rest
    else parenRemoveAux (some (b ++ [c])) rest

/-- `re.sub(r'\\([^)]+\\)', '', s)`: remove each parenthesised group. -/
def parenRemove (l : PyStr) : PyStr := parenRemoveAux none l

/-- Python `pat in s` (substring containment), for `pat`, `s` strings. -/
def containsSub (pat s : PyStr) : Bool :=
  (List.range (s.length + 1)).any (fun i => pat.isPrefixOf (s.drop i))

/-- Python `s.replace(pat, repl)` for a non-empty `pat`: replace every
non-overlapping occurrence, scanning left to right.  The fuel argument (set to
`s.length` by the wrapper, which the scan never exhausts since every step
consumes at least one character) keeps the recursion structural. -/
def replaceAllF (pat repl : PyStr) : Nat → PyStr → PyStr
  | _, [] => []
  | 0, s => s
  | fuel + 1, c :: rest =>
    if pat ≠ [] ∧ pat.isPrefixOf (c :: rest) then
      repl ++ replaceAllF pat repl fuel ((c :: rest).drop pat.length)
    else c :: replaceAllF pat repl fuel rest

/-- Python `s.replace(pat, repl)` for a non-empty `pat`. -/
def replaceAllP (pat repl : PyStr) (s : PyStr) : PyStr :=
  replaceAllF pat repl s.length s

/-- Python `s.split()`: split on whitespace runs, discarding empty pieces. -/
def pySplit (s : PyStr) : List PyStr :=
  (s.splitOnP isWs).filter (· ≠ [])

/-- `fuzzywuzzy.process.extractOne` without a cutoff: the first choice
attaining the maximal score (`max` keeps the first maximum), `none` iff
`choices` is empty. -/
def extractBest (score : PyStr → PyStr → Nat) (q : PyStr) (choices : List PyStr) :
    Option (PyStr × Nat) :=
  choices.foldl
    (fun acc c =>
      match acc with
      | none => some (c, score q c)
      | some (b, bs) => if score q c > bs then some (c, score q c) else some (b, bs))
    none

/-- `fuzzywuzzy.process.extractOne` with a `score_cutoff`: candidates scoring
below the cutoff are ignored before taking the maximum; since filtering keeps
the order and every maximum passes the filter when the best does, this equals
thresholding the unfiltered best. -/
def extractOne (score : PyStr → PyStr → Nat) (q : PyStr) (choices : List PyStr)
    (cutoff : Nat) : Option (PyStr × Nat) :=
  match extractBest score q choices with
  | none => none
  | some (b, bs) => if cutoff ≤ bs then some (b, bs) else none

/-! ## Data model (§3 of the spec; the dataclasses of both scripts) -/

/-- `Company` dataclass: an internal entity. -/
structure Company where
  company_id : Int
  company_name : PyStr
  tsx_code : Option PyStr
deriving Repr, DecidableEq

/-- `GoldstockCompany` dataclass: an external record.  `exchange` (present only
in the extended variant) plays no role in matching and is omitted. -/
structure GoldstockCompany where
  goldstock_id : String
  company_name : PyStr
  ticker : Option PyStr
  aliases : List PyStr := []
deriving Repr, DecidableEq

/-- `Mapping` dataclass: one match outcome per internal entity.
`confidence_score` is a `float` in Python but only ever holds the integer
values 0, 70–100, so it is embedded as `Nat`. -/
structure Mapping where
  company_id : Int
  company_name : PyStr
  tsx_code : Option PyStr
  goldstock_id : Option String
  goldstock_name : Option PyStr
  match_status : String
  confidence_score : Nat
  match_method : String
deriving Repr, DecidableEq

/-- One value of the operator-supplied `known_mappings` table. -/
structure KnownMapping where
  goldstock_id : String
  goldstock_name : PyStr
  confidence_score : Nat
deriving Repr, DecidableEq

/-- The persisted checkpoint: `{"processed_ids": [...], "mappings": [...]}`. -/
structure Checkpoint where
  processed_ids : List Int
  mappings : List Mapping
deriving Repr, DecidableEq

/-- `known_mappings` is a Python dict keyed by internal id; keys are unique, so
first-match lookup models dict lookup. -/
def lookupKnown (km : List (Int × KnownMapping)) (i : Int) : Option KnownMapping :=
  (km.find? (fun p => p.1 == i)).map (·.2)

/-- The `gs_by_ticker` / `gs_by_normalized_name` dicts.  Insertion appends and
lookup takes the last binding, modelling the scripts' last-writer-wins dict
assignment (§4.5 of the spec). -/
abbrev Index := List (PyStr × GoldstockCompany)

def idxLookup (idx : Index) (k : PyStr) : Option GoldstockCompany :=
  (idx.reverse.find? (fun p => p.1 == k)).map (·.2)

/-! ## Normalizer (§4.1; `normalize_ticker` / `normalize_name` in both scripts) -/

/-- One suffix regex `\s+<stem><opt>?$` applied by `re.sub(..., '', s)`:
if `s` ends with the given ending preceded by at least one whitespace
character, remove the ending together with the whole trailing whitespace run
(the leftmost match of the anchored pattern starts at the beginning of that
run because `\s+` is greedy); otherwise `s` is unchanged. -/
def tryStripEnding (ending : PyStr) (s : PyStr) : Option PyStr :=
  if ending.isSuffixOf s then
    let core := s.take (s.length - ending.length)
    let r := rstripP core
    if r.length < core.length then some r else none
  else none

/-- Apply one pattern of the suffix list.  A pattern is a stem plus an optional
final codepoint (`inc\.?` → stem `inc`, optional 46; `ventures?` → stem
`venture`, optional 115).  The greedy optional char is tried first; the two
endings cannot both match, so the order is immaterial. -/
def applySfx (p : PyStr × Option Nat) (s : PyStr) : PyStr :=
  match p.2 with
  | some c =>
    match tryStripEnding (p.1 ++ [c]) s with
    | some r => r
    | none =>
      match tryStripEnding p.1 s with
      | some r => r
      | none => s
  | none =>
    match tryStripEnding p.1 s with
    | some r => r
    | none => s

/-- The `for suffix in suffixes: name = re.sub(suffix, '', name, ...)` loop:
one pass over the pattern list, each pattern applied to the previous result. -/
def stripSuffixes (L : List (PyStr × Option Nat)) (s : PyStr) : PyStr :=
  L.foldl (fun acc p => applySfx p acc) s

/-- `re.sub(r'[^\w\s]', ' ', s)`. -/
def replacePunct (s : PyStr) : PyStr :=
  s.map (fun c => if isWordC c || isWs c then c else 32)

/-- `normalize_name`, parameterised by the suffix list (the two scripts differ
only there): lower-case, one suffix-stripping pass, punctuation to spaces,
whitespace collapsed, trimmed.  Returns `""` for `None` or `""` input. -/
def normalizeNameWith (L : List (PyStr × Option Nat)) (name : Option PyStr) : PyStr :=
  match name with
  | none => []
  | some s =>
    if s = [] then []
    else stripP (collapseWs (replacePunct (stripSuffixes L (s.map lowerC))))

/-- `re.sub(r'^(C1|C2|...):', '', s, flags=IGNORECASE)`: the pattern is
anchored, so at most one prefix `CODE:` is removed per call; alternation with
backtracking is equivalent to trying `CODE ++ ":"` for each code in turn
against the upper-cased string. -/
def stripExchangePre (codes : List PyStr) (s : PyStr) : PyStr :=
  match codes.find? (fun code => (code ++ [58]).isPrefixOf (s.map upperC)) with
  | some code => s.drop (code.length + 1)
  | none => s

/-- `re.sub(r'\.(C1|C2|...)$', '', s, flags=IGNORECASE)`: at most one suffix
`.CODE` is removed per call; the end anchor makes alternation equivalent to an
ends-with test for `"." ++ CODE` on the upper-cased string (the code sets used
never overlap at the end of a string). -/
def stripExchangeSuf (codes : List PyStr) (s : PyStr) : PyStr :=
  match codes.find? (fun code => (46 :: code).isSuffixOf (s.map upperC)) with
  | some code => s.take (s.length - (code.length + 1))
  | none => s

/-- The shared body of `normalize_ticker` on a truthy string: strip one
exchange prefix, one exchange suffix, then every `.`/`-`/`_`, then
`strip().upper()`. -/
def tickerCore (pres sufs : List PyStr) (s : PyStr) : PyStr :=
  let s1 := stripExchangePre pres s
  let s2 := stripExchangeSuf sufs s1
  let s3 := s2.filter (fun c => !(c == 46 || c == 45 || c == 95))
  (stripP s3).map upperC

/-! ## Strict variant: `src/supabase/mapping_script.py` -/

namespace MS1

/-- Exchange prefixes of `mapping_script.py` line 141. -/
def tickerPres : List PyStr :=
  [str2c "CVE", str2c "TSE", str2c "TSX", str2c "TSXV", str2c "CSE", str2c "CNSX",
   str2c "NYSE", str2c "NASDAQ", str2c "OTC"]

/-- Exchange suffixes of `mapping_script.py` line 144. -/
def tickerSufs : List PyStr :=
  [str2c "V", str2c "TO", str2c "CN", str2c "T", str2c "VN", str2c "WT"]

/-- `normalize_ticker` (lines 125–155).  `None`/`""` input gives `None`; an
input ending in the literal `".CN"` (case-sensitive `str.endswith`) is
special-cased to `ticker[:-3].strip().upper()`; otherwise the shared core. -/
def normalize_ticker (t : Option PyStr) : Option PyStr :=
  match t with
  | none => none
  | some s =>
    if s = [] then none
    else if (str2c ".CN").isSuffixOf s then
      some ((stripP (s.take (s.length - 3))).map upperC)
    else
      some (tickerCore tickerPres tickerSufs s)

/-- The ordered suffix list of `normalize_name` (lines 166–171). -/
def nameSfx : List (PyStr × Option Nat) :=
  [(str2c "inc", some 46), (str2c "ltd", some 46), (str2c "limited", none),
   (str2c "corp", some 46), (str2c "corporation", none), (str2c "plc", none),
   (str2c "llc", none), (str2c "sa", none), (str2c "ag", none),
   (str2c "mining", none), (str2c "mines", none), (str2c "resources", none),
   (str2c "minerals", none), (str2c "gold", none), (str2c "silver", none),
   (str2c "metals", none), (str2c "exploration", none)]

/-- `normalize_name` (lines 157–180). -/
def normalize_name (name : Option PyStr) : PyStr := normalizeNameWith nameSfx name

/-- `extract_company_aliases` (lines 182–206): the name itself; the name with
parenthesised groups removed (when non-empty); the first-letters abbreviation
(when >1 word and >1 letter); `&`→`and`; `" and "`→`" & "`.  `list(set(...))`
is modelled by `dedup` — only membership matters. -/
def extract_company_aliases (name : PyStr) : List PyStr :=
  let a1 := [name]
  let a2 :=
    if (40 ∈ name) ∧ (41 ∈ name) then
      let clean := stripP (parenRemove name)
      if clean ≠ [] then a1 ++ [clean] else a1
    else a1
  let ws := pySplit name
  let a3 :=
    if ws.length > 1 then
      let ab := (ws.filterMap (fun w => w.head?)).map upperC
      if ab.length > 1 then a2 ++ [ab] else a2
    else a2
  let a4 := if 38 ∈ name then a3 ++ [replaceAllP [38] (str2c "and") name] else a3
  let a5 :=
    if containsSub (str2c " and ") name then
      a4 ++ [replaceAllP (str2c " and ") (str2c " & ") name]
    else a4
  a5.dedup

end MS1

/-! ## Extended variant normalizers: `src/supabase/mapping_script2.py` -/

namespace MS2

/-- Exchange prefixes of `mapping_script2.py` line 137 (adds `NEO`). -/
def tickerPres : List PyStr := MS1.tickerPres ++ [str2c "NEO"]

/-- Exchange suffixes of line 138 (adds `CSE`, `NEO`). -/
def tickerSufs : List PyStr := MS1.tickerSufs ++ [str2c "CSE", str2c "NEO"]

/-- `normalize_ticker` (lines 130–146): no `.CN` special case. -/
def normalize_ticker (t : Option PyStr) : Option PyStr :=
  match t with
  | none => none
  | some s => if s = [] then none else some (tickerCore tickerPres tickerSufs s)

/-- The suffix list of lines 155–161 (adds `ventures?`, `holdings?`, `group`,
`international`). -/
def nameSfx : List (PyStr × Option Nat) :=
  MS1.nameSfx ++
    [(str2c "venture", some 115), (str2c "holding", some 115),
     (str2c "group", none), (str2c "international", none)]

/-- `normalize_name` (lines 148–168). -/
def normalize_name (name : Option PyStr) : PyStr := normalizeNameWith nameSfx name

/-- `extract_company_aliases` (lines 170–196): same as the strict variant
except that the contents of each parenthesised group are also added, the
abbreviation only takes words starting with a letter, and the `" and "` test
is done on the lower-cased name. -/
def extract_company_aliases (name : PyStr) : List PyStr :=
  let a1 := [name]
  let a2 :=
    if (40 ∈ name) ∧ (41 ∈ name) then
      let clean := stripP (parenRemove name)
      (if clean ≠ [] then a1 ++ [clean] else a1) ++ parenSegments name
    else a1
  let ws := pySplit name
  let a3 :=
    if ws.length > 1 then
      let ab := ((ws.filterMap (fun w => w.head?)).filter
        (fun c => (65 ≤ c && c ≤ 90) || (97 ≤ c && c ≤ 122))).map upperC
      if ab.length > 1 then a2 ++ [ab] else a2
    else a2
  let a4 := if 38 ∈ name then a3 ++ [replaceAllP [38] (str2c "and") name] else a3
  let a5 :=
    if containsSub (str2c " and ") (name.map lowerC) then
      a4 ++ [replaceAllP (str2c " and ") (str2c " & ") name]
    else a4
  a5.dedup

end MS2

/-! ## Resolution engine (§4.5–4.6; `perform_matching` in both scripts)

Both scripts try the four tiers in the same strict precedence (the strict
variant with `continue` statements, the extended one with `if not match`
guards); each per-entity body is the first tier that fires, with an unmatched
default.  The `interrupted` flag is `False` throughout a non-interrupted run,
which is what the claims quantify over. -/

/-- The unmatched default outcome (`status='unmatched'`, no id, confidence 0,
`method='none'`). -/
def unmatchedM (c : Company) : Mapping :=
  { company_id := c.company_id, company_name := c.company_name,
    tsx_code := c.tsx_code, goldstock_id := none, goldstock_name := none,
    match_status := "unmatched", confidence_score := 0, match_method := "none" }

/-- Tier 1, identical in both scripts: the `known_mappings` table. -/
def knownTier (km : List (Int × KnownMapping)) (c : Company) : Option Mapping :=
  (lookupKnown km c.company_id).map fun k =>
    { company_id := c.company_id, company_name := c.company_name,
      tsx_code := c.tsx_code, goldstock_id := some k.goldstock_id,
      goldstock_name := some k.goldstock_name, match_status := "matched",
      confidence_score := k.confidence_score, match_method := "known_mapping" }

/-- Tier 2, parameterised by the variant's `normalize_ticker`: fires iff the
entity's ticker is truthy, normalizes to a truthy string, and that key is in
`gs_by_ticker`. -/
def tickerTierWith (norm : Option PyStr → Option PyStr) (tIdx : Index)
    (c : Company) : Option Mapping :=
  match norm c.tsx_code with
  | none => none
  | some nt =>
    if nt = [] then none
    else
      (idxLookup tIdx nt).map fun gs =>
        { company_id := c.company_id, company_name := c.company_name,
          tsx_code := c.tsx_code, goldstock_id := some gs.goldstock_id,
          goldstock_name := some gs.company_name, match_status := "matched",
          confidence_score := 100, match_method := "exact_ticker" }

/-- Tier 3, parameterised by the variant's `normalize_name`: fires iff the
normalized entity name is a key of `gs_by_normalized_name` (no truthiness
guard in either script). -/
def nameTierWith (norm : Option PyStr → PyStr) (nIdx : Index)
    (c : Company) : Option Mapping :=
  (idxLookup nIdx (norm (some c.company_name))).map fun gs =>
    { company_id := c.company_id, company_name := c.company_name,
      tsx_code := c.tsx_code, goldstock_id := some gs.goldstock_id,
      goldstock_name := some gs.company_name, match_status := "matched",
      confidence_score := 95, match_method := "exact_name" }

/-- `gs_by_ticker` as built by either script's `perform_matching` preamble:
insert each record under its normalized ticker when ticker and key are truthy;
later records overwrite earlier ones. -/
def buildTickerIndexWith (norm : Option PyStr → Option PyStr)
    (gsList : List GoldstockCompany) : Index :=
  gsList.foldl
    (fun idx gs =>
      match gs.ticker with
      | none => idx
      | some t =>
        if t = [] then idx
        else
          match norm (some t) with
          | none => idx
          | some nt => if nt = [] then idx else idx ++ [(nt, gs)])
    []

/-- `gs_by_normalized_name` as built by either script: each record under its
normalized name and under each normalized alias, truthy keys only, last
writer wins. -/
def buildNameIndexWith (norm : Option PyStr → PyStr)
    (gsList : List GoldstockCompany) : Index :=
  gsList.foldl
    (fun idx gs =>
      let idx1 :=
        let k := norm (some gs.company_name)
        if k ≠ [] then idx ++ [(k, gs)] else idx
      gs.aliases.foldl
        (fun idx2 al =>
          let ka := norm (some al)
          if ka ≠ [] then idx2 ++ [(ka, gs)] else idx2)
        idx1)
    []

namespace MS1

/-- Tier 4 of the strict variant (lines 467–498): `process.extractOne` with no
cutoff over the normalized external names, then the first record whose
normalized name equals the returned choice is accepted iff the score is ≥ 80.
Guarded by `if normalized_name and all_gs_names`. -/
def fuzzyTier (gsList : List GoldstockCompany) (score : PyStr → PyStr → Nat)
    (c : Company) : Option Mapping :=
  let nn := normalize_name (some c.company_name)
  if nn ≠ [] ∧ gsList ≠ [] then
    match extractOne score nn (gsList.map fun gs => normalize_name (some gs.company_name)) 0 with
    | none => none
    | some (mn, s) =>
      match gsList.find? (fun gs => normalize_name (some gs.company_name) == mn) with
      | none => none
      | some gs =>
        if 80 ≤ s then
          some { company_id := c.company_id, company_name := c.company_name,
                 tsx_code := c.tsx_code, goldstock_id := some gs.goldstock_id,
                 goldstock_name := some gs.company_name,
                 match_status := if 90 ≤ s then "matched" else "manual",
                 confidence_score := s, match_method := "fuzzy_name" }
        else none
  else none

/-- The body of the per-entity loop of `perform_matching` (lines 406–526):
first tier that fires wins; otherwise the unmatched default. -/
def matchOne (km : List (Int × KnownMapping)) (tIdx nIdx : Index)
    (gsList : List GoldstockCompany) (score : PyStr → PyStr → Nat)
    (c : Company) : Mapping :=
  match knownTier km c with
  | some m => m
  | none =>
    match tickerTierWith normalize_ticker tIdx c with
    | some m => m
    | none =>
      match nameTierWith normalize_name nIdx c with
      | some m => m
      | none =>
        match fuzzyTier gsList score c with
        | some m => m
        | none => unmatchedM c

/-- `perform_matching` (lines 379–546), non-interrupted run: build the two
indexes, then resolve each entity in input order.  Checkpoint/CSV writes are
I/O side effects and do not affect the returned list. -/
def perform_matching (companies : List Company) (gsList : List GoldstockCompany)
    (km : List (Int × KnownMapping)) (score : PyStr → PyStr → Nat) : List Mapping :=
  companies.map
    (matchOne km (buildTickerIndexWith normalize_ticker gsList)
      (buildNameIndexWith normalize_name gsList) gsList score)

end MS1

namespace MS2

/-- Tier 4 of the extended variant (lines 466–489): `process.extractOne` with
`score_cutoff=70`; an accepted candidate is `matched` iff its score is ≥ 85,
else `manual`.  Guarded by `if not match and normalized_company_name`.
(`choices.index(matched_name)` picks the first equal choice; it cannot fail
because the returned choice is an element of `choices`.) -/
def fuzzyTier (gsList : List GoldstockCompany) (score : PyStr → PyStr → Nat)
    (c : Company) : Option Mapping :=
  let nn := normalize_name (some c.company_name)
  if nn ≠ [] then
    match extractOne score nn (gsList.map fun gs => normalize_name (some gs.company_name)) 70 with
    | none => none
    | some (mn, s) =>
      match gsList.find? (fun gs => normalize_name (some gs.company_name) == mn) with
      | none => none
      | some gs =>
        some { company_id := c.company_id, company_name := c.company_name,
               tsx_code := c.tsx_code, goldstock_id := some gs.goldstock_id,
               goldstock_name := some gs.company_name,
               match_status := if 85 ≤ s then "matched" else "manual",
               confidence_score := s, match_method := "fuzzy_name" }
  else none

/-- The body of the per-entity loop of `perform_matching` (lines 409–521): the
`if not match` guard chain gives the same first-tier-wins structure as the
strict variant. -/
def matchOne (km : List (Int × KnownMapping)) (tIdx nIdx : Index)
    (gsList : List GoldstockCompany) (score : PyStr → PyStr → Nat)
    (c : Company) : Mapping :=
  match knownTier km c with
  | some m => m
  | none =>
    match tickerTierWith normalize_ticker tIdx c with
    | some m => m
    | none =>
      match nameTierWith normalize_name nIdx c with
      | some m => m
      | none =>
        match fuzzyTier gsList score c with
        | some m => m
        | none => unmatchedM c

/-- `perform_matching` (lines 381–523), non-interrupted run; returns `[]`
immediately when no external records are available. -/
def perform_matching (companies : List Company) (gsList : List GoldstockCompany)
    (km : List (Int × KnownMapping)) (score : PyStr → PyStr → Nat) : List Mapping :=
  if gsList = [] then []
  else
    companies.map
      (matchOne km (buildTickerIndexWith normalize_ticker gsList)
        (buildNameIndexWith normalize_name gsList) gsList score)

end MS2

/-- The resume filter of both mains (`mapping_script.py` lines 624–626,
`mapping_script2.py` lines 615–618): with `--resume` and a truthy
`processed_ids`, entities already processed are dropped. -/
def resumeWorkList (resume : Bool) (cp : Checkpoint) (companies : List Company) :
    List Company :=
  if resume ∧ cp.processed_ids ≠ [] then
    companies.filter (fun c => !(cp.processed_ids.contains c.company_id))
  else companies

namespace MS1

/-- The data flow of `main` of `mapping_script.py` (lines 590–668) on a
non-interrupted run, from the loaded entity list, checkpoint and fetched
record set to the final output table written by `save_mappings` (line 652):
abort (`none`) on an empty entity list or an empty fetched set.  Crucially,
this `perform_matching` ends with an unconditional
`matcher.save_checkpoint(mappings)` (line 544), which overwrites the loaded
checkpoint's `mappings` with the newly produced list *before* `main`'s merge
guard `if args.resume and matcher.checkpoint['mappings']` (line 647) reads
it; the merge therefore prepends the new mappings to themselves when any were
produced, and is skipped entirely when the resumed work list was empty — the
prior checkpoint contents are never prepended.  (With an empty final list the
script then crashes in the summary's division, after having written the empty
table.) -/
def runMain (resume : Bool) (companies : List Company) (cp : Checkpoint)
    (gsList : List GoldstockCompany) (km : List (Int × KnownMapping))
    (score : PyStr → PyStr → Nat) : Option (List Mapping) :=
  if companies = [] then none
  else
    let work := resumeWorkList resume cp companies
    if gsList = [] then none
    else
      let newMappings := perform_matching work gsList km score
      some (if resume ∧ newMappings ≠ [] then newMappings ++ newMappings
            else newMappings)

end MS1

namespace MS2

/-- `matcher.checkpoint` as left by `perform_matching` of
`mapping_script2.py`: the save at the last loop iteration (line 509,
`i == len(companies) - 1`) overwrites the loaded checkpoint with the new
mappings (and their ids) whenever at least one entity was processed; with an
empty work list the loop body never runs and the loaded checkpoint is
untouched. -/
def checkpointAfterMatching (cp : Checkpoint) (work : List Company)
    (newMappings : List Mapping) : Checkpoint :=
  if work = [] then cp
  else { processed_ids := newMappings.map (·.company_id), mappings := newMappings }

/-- The data flow of `main` of `mapping_script2.py` (lines 578–684) on a
non-interrupted run: abort (`none`) on an empty entity list or an empty
fetched set; otherwise resolve the resume-filtered work list and, when
resuming with a truthy `matcher.checkpoint['mappings']`, prepend that list —
the checkpoint **as mutated by `perform_matching`** (see
`checkpointAfterMatching`), not the one loaded at start.  So with a non-empty
work list the code prepends the new mappings to themselves, and only with an
empty work list does it prepend the prior checkpoint contents
(`Mapping(**m)` reconstruction is the identity in this model). -/
def runMain (resume : Bool) (companies : List Company) (cp : Checkpoint)
    (gsList : List GoldstockCompany) (km : List (Int × KnownMapping))
    (score : PyStr → PyStr → Nat) : Option (List Mapping) :=
  if companies = [] then none
  else
    let work := resumeWorkList resume cp companies
    if gsList = [] then none
    else
      let newMappings := perform_matching work gsList km score
      let cpAfter := checkpointAfterMatching cp work newMappings
      some (if resume ∧ cpAfter.mappings ≠ [] then cpAfter.mappings ++ newMappings
            else newMappings)

end MS2

/-! ## Record cache and fetch (§4.3–4.4; `fetch_company_by_id` of
`mapping_script.py` and the cache persistence behaviour of its `main`) -/

/-- A cache entry: `some gs` for a fetched record, `none` for a durable
negative (`null` in the JSON file). -/
abbrev CacheVal := Option GoldstockCompany

/-- The in-memory cache dict.  The scripts key it by the string
`"goldstock_<id>"`; since that prefix is fixed, the key is modelled by the
integer id itself. -/
abbrev Cache := List (Nat × CacheVal)

/-- Dict membership / lookup (`cache_key in self.matcher.cache`). -/
def cacheGet (c : Cache) (k : Nat) : Option CacheVal :=
  (c.find? (fun p => p.1 == k)).map (·.2)

/-- Dict assignment on a fresh key (the fetcher only assigns after a miss). -/
def cachePut (c : Cache) (k : Nat) (v : CacheVal) : Cache := c ++ [(k, v)]

/-- What one call of the external fetcher can produce, from the branches of
`fetch_company_by_id` (lines 212–345 of `mapping_script.py`). -/
inductive FetchOutcome where
  /-- HTTP 404: confirmed absence (line 231). -/
  | notFound
  /-- Page retrieved but no company name extracted (line 268). -/
  | noName
  /-- A record extracted (line 322). -/
  | success (gs : GoldstockCompany)
  /-- `requests.RequestException` or any other error: nothing cached. -/
  | failure
deriving Repr, DecidableEq

/-- The fetch-phase state: the in-memory cache, the last snapshot persisted by
`save_cache`, and the ids for which the network fetcher was actually invoked. -/
structure FetchState where
  mem : Cache
  disk : Cache
  called : List Nat
deriving Repr, DecidableEq

/-- `fetch_company_by_id(gid)` of `mapping_script.py`: a cache hit returns the
cached value with no network call; a miss invokes the fetcher and caches
404/no-name results as `none` and successes as `some`.  The periodic
`save_cache` (`if len(cache) % 50 == 0`) runs on the no-name and success
branches; the 404 branch (lines 231–234) caches the null *without* any save,
and errors cache nothing. -/
def fetchStep (fetcher : Nat → FetchOutcome) (st : FetchState) (gid : Nat) :
    FetchState × Option GoldstockCompany :=
  match cacheGet st.mem gid with
  | some v => (st, v)
  | none =>
    let st1 := { st with called := st.called ++ [gid] }
    match fetcher gid with
    | .notFound => ({ st1 with mem := cachePut st1.mem gid none }, none)
    | .noName =>
      let mem := cachePut st1.mem gid none
      ({ st1 with mem := mem, disk := if mem.length % 50 == 0 then mem else st1.disk },
       none)
    | .success gs =>
      let mem := cachePut st1.mem gid (some gs)
      ({ st1 with mem := mem, disk := if mem.length % 50 == 0 then mem else st1.disk },
       some gs)
    | .failure => (st1, none)

/-- The fetch phase of a run of `mapping_script.py` over an id list (the
thread pool serialises per-id cache logic; completion order only permutes the
collected list).  Crucially, `main` (lines 590–668) never calls `save_cache`
after the fetch phase, so the persisted cache at the end of a clean run is
exactly the `disk` component left by the periodic saves. -/
def runFetch (fetcher : Nat → FetchOutcome) (st : FetchState) (ids : List Nat) :
    FetchState × List GoldstockCompany :=
  ids.foldl
    (fun acc gid =>
      let r := fetchStep fetcher acc.1 gid
      (r.1, match r.2 with | some gs => acc.2 ++ [gs] | none => acc.2))
    (st, [])

/-! ## Persisted-state loading (§4.7; `load_cache` / `load_checkpoint` of
`CompanyMatcher`, identical in both scripts up to logging)

The file system and `json.load` are modelled by an `Option PyStr` file content
(`none` = file absent) and an abstract parser returning `none` when `json.load`
(or record reconstruction) raises — the `try/except` bodies catch every
exception. -/

/-- `load_cache` (lines 84–91): absent or unparseable file gives `{}`. -/
def load_cache (parse : PyStr → Option Cache) (file : Option PyStr) : Cache :=
  match file with
  | none => []
  | some content =>
    match parse content with
    | some d => d
    | none => []

/-- `load_checkpoint` (lines 103–110): absent or unparseable file gives
`{"processed_ids": [], "mappings": []}`. -/
def load_checkpoint (parse : PyStr → Option Checkpoint) (file : Option PyStr) :
    Checkpoint :=
  match file with
  | none => { processed_ids := [], mappings := [] }
  | some content =>
    match parse content with
    | some cp => cp
    | none => { processed_ids := [], mappings := [] }

/-! ## Helper lemmas about the tiers -/

/-- The four-way outcome invariant of §3 of the spec (claim C2). -/
def OutcomeInv (m : Mapping) : Prop :=
  (m.match_status = "unmatched" ↔ m.goldstock_id = none) ∧
  (m.match_status = "unmatched" ↔ m.match_method = "none") ∧
  (m.match_status = "unmatched" ↔ m.confidence_score = 0)

theorem outcomeInv_unmatchedM (c : Company) : OutcomeInv (unmatchedM c) := by
  simp [OutcomeInv, unmatchedM]

theorem knownTier_some_inv {km : List (Int × KnownMapping)} {c : Company} {m : Mapping}
    (hpos : ∀ p ∈ km, 0 < p.2.confidence_score)
    (h : knownTier km c = some m) : OutcomeInv m := by
  unfold knownTier at h
  cases hk : lookupKnown km c.company_id with
  | none => rw [hk] at h; cases h
  | some k =>
    rw [hk] at h
    cases h
    have hmem : ∃ p ∈ km, p.2 = k := by
      unfold lookupKnown at hk
      cases hf : km.find? (fun p => p.1 == c.company_id) with
      | none => rw [hf] at hk; cases hk
      | some p =>
        rw [hf] at hk
        exact ⟨p, List.mem_of_find?_eq_some hf, by simpa using hk⟩
    obtain ⟨p, hp, rfl⟩ := hmem
    have := hpos p hp
    simp [OutcomeInv]
    omega

theorem tickerTier_some_inv {norm : Option PyStr → Option PyStr} {tIdx : Index}
    {c : Company} {m : Mapping} (h : tickerTierWith norm tIdx c = some m) :
    OutcomeInv m := by
  unfold tickerTierWith at h
  split at h
  · cases h
  · split at h
    · cases h
    · rw [Option.map_eq_some'] at h
      obtain ⟨gs, _, rfl⟩ := h
      simp [OutcomeInv]

theorem nameTier_some_inv {norm : Option PyStr → PyStr} {nIdx : Index}
    {c : Company} {m : Mapping} (h : nameTierWith norm nIdx c = some m) :
    OutcomeInv m := by
  unfold nameTierWith at h
  rw [Option.map_eq_some'] at h
  obtain ⟨gs, _, rfl⟩ := h
  simp [OutcomeInv]

theorem extractOne_le {score : PyStr → PyStr → Nat} {q : PyStr} {choices : List PyStr}
    {cutoff : Nat} {mn : PyStr} {s : Nat}
    (h : extractOne score q choices cutoff = some (mn, s)) :
    cutoff ≤ s ∧ extractBest score q choices = some (mn, s) := by
  unfold extractOne at h
  cases hb : extractBest score q choices with
  | none => simp [hb] at h
  | some p =>
    obtain ⟨b, bs⟩ := p
    simp only [hb] at h
    split at h
    · rename_i hc
      have hbs : b = mn ∧ bs = s := by simpa using h
      obtain ⟨rfl, rfl⟩ := hbs
      exact ⟨hc, rfl⟩
    · cases h

theorem extractBest_fold_mem {score : PyStr → PyStr → Nat} {q : PyStr} :
    ∀ {choices : List PyStr} {acc : Option (PyStr × Nat)} {mn : PyStr} {s : Nat},
      choices.foldl
        (fun acc c =>
          match acc with
          | none => some (c, score q c)
          | some (b, bs) => if score q c > bs then some (c, score q c) else some (b, bs))
        acc = some (mn, s) →
      acc = some (mn, s) ∨ mn ∈ choices := by
  intro choices
  induction choices with
  | nil => intro acc mn s h; exact Or.inl h
  | cons c rest ih =>
    intro acc mn s h
    rcases ih h with h1 | h2
    · cases acc with
      | none =>
        have hc : c = mn ∧ score q c = s := by simpa using h1
        exact Or.inr (by simp [hc.1])
      | some p =>
        obtain ⟨b, bs⟩ := p
        by_cases hgt : score q c > bs
        · have hc : c = mn ∧ score q c = s := by simpa [hgt] using h1
          exact Or.inr (by simp [hc.1])
        · have hc : b = mn ∧ bs = s := by simpa [hgt] using h1
          exact Or.inl (by simp [hc.1, hc.2])
    · exact Or.inr (List.mem_cons_of_mem c h2)

theorem extractBest_mem {score : PyStr → PyStr → Nat} {q : PyStr}
    {choices : List PyStr} {mn : PyStr} {s : Nat}
    (h : extractBest score q choices = some (mn, s)) : mn ∈ choices := by
  unfold extractBest at h
  rcases extractBest_fold_mem h with h1 | h2
  · cases h1
  · exact h2

theorem ms1_fuzzyTier_some_inv {gsList : List GoldstockCompany}
    {score : PyStr → PyStr → Nat} {c : Company} {m : Mapping}
    (h : MS1.fuzzyTier gsList score c = some m) : OutcomeInv m := by
  simp only [MS1.fuzzyTier] at h
  split at h
  · split at h
    · cases h
    · split at h
      · cases h
      · split at h
        · rename_i hs
          cases h
          by_cases h90 : 90 ≤ ‹Nat›
          all_goals simp +decide [OutcomeInv, h90]
          all_goals omega
        · cases h
  · cases h

theorem ms2_fuzzyTier_some_inv {gsList : List GoldstockCompany}
    {score : PyStr → PyStr → Nat} {c : Company} {m : Mapping}
    (h : MS2.fuzzyTier gsList score c = some m) : OutcomeInv m := by
  simp only [MS2.fuzzyTier] at h
  split at h
  · cases heo : extractOne score (MS2.normalize_name (some c.company_name))
        (gsList.map fun gs => MS2.normalize_name (some gs.company_name)) 70 with
    | none => simp [heo] at h
    | some p =>
      obtain ⟨mn, s⟩ := p
      have hs : 70 ≤ s := (extractOne_le heo).1
      simp only [heo] at h
      split at h
      · cases h
      · cases h
        by_cases h85 : 85 ≤ s
        all_goals simp +decide [OutcomeInv, h85]
        all_goals omega
  · cases h

theorem ms1_matchOne_inv {km : List (Int × KnownMapping)} {tIdx nIdx : Index}
    {gsList : List GoldstockCompany} {score : PyStr → PyStr → Nat} {c : Company}
    (hpos : ∀ p ∈ km, 0 < p.2.confidence_score) :
    OutcomeInv (MS1.matchOne km tIdx nIdx gsList score c) := by
  unfold MS1.matchOne
  cases h1 : knownTier km c with
  | some m => exact knownTier_some_inv hpos h1
  | none =>
    cases h2 : tickerTierWith MS1.normalize_ticker tIdx c with
    | some m => exact tickerTier_some_inv h2
    | none =>
      cases h3 : nameTierWith MS1.normalize_name nIdx c with
      | some m => exact nameTier_some_inv h3
      | none =>
        cases h4 : MS1.fuzzyTier gsList score c with
        | some m => exact ms1_fuzzyTier_some_inv h4
        | none => exact outcomeInv_unmatchedM c

theorem ms2_matchOne_inv {km : List (Int × KnownMapping)} {tIdx nIdx : Index}
    {gsList : List GoldstockCompany} {score : PyStr → PyStr → Nat} {c : Company}
    (hpos : ∀ p ∈ km, 0 < p.2.confidence_score) :
    OutcomeInv (MS2.matchOne km tIdx nIdx gsList score c) := by
  unfold MS2.matchOne
  cases h1 : knownTier km c with
  | some m => exact knownTier_some_inv hpos h1
  | none =>
    cases h2 : tickerTierWith MS2.normalize_ticker tIdx c with
    | some m => exact tickerTier_some_inv h2
    | none =>
      cases h3 : nameTierWith MS2.normalize_name nIdx c with
      | some m => exact nameTier_some_inv h3
      | none =>
        cases h4 : MS2.fuzzyTier gsList score c with
        | some m => exact ms2_fuzzyTier_some_inv h4
        | none => exact outcomeInv_unmatchedM c

/-! ## Claim theorems -/

/-- C1: For every internal entity whose id has an entry in the known-override
table, the outcome emitted by the resolution engine (position `i` of the
output of `perform_matching`, in either variant) has
`match_method = "known_mapping"`, `match_status = "matched"`, and
`goldstock_id`/`goldstock_name`/`confidence_score` taken from the override
entry — regardless of the ticker/name indexes, the external record list and
the fuzzy scorer, i.e. regardless of what the other tiers would have
produced. -/
theorem c1_known_override (companies : List Company)
    (gsList1 gsList2 : List GoldstockCompany) (km : List (Int × KnownMapping))
    (score1 score2 : PyStr → PyStr → Nat) (i : Nat) (hi : i < companies.length)
    (k : KnownMapping)
    (hk : lookupKnown km (companies.get ⟨i, hi⟩).company_id = some k)
    (hgs : gsList2 ≠ []) :
    (MS1.perform_matching companies gsList1 km score1)[i]? =
      some { company_id := (companies.get ⟨i, hi⟩).company_id,
             company_name := (companies.get ⟨i, hi⟩).company_name,
             tsx_code := (companies.get ⟨i, hi⟩).tsx_code,
             goldstock_id := some k.goldstock_id,
             goldstock_name := some k.goldstock_name,
             match_status := "matched",
             confidence_score := k.confidence_score,
             match_method := "known_mapping" } ∧
    (MS2.perform_matching companies gsList2 km score2)[i]? =
      some { company_id := (companies.get ⟨i, hi⟩).company_id,
             company_name := (companies.get ⟨i, hi⟩).company_name,
             tsx_code := (companies.get ⟨i, hi⟩).tsx_code,
             goldstock_id := some k.goldstock_id,
             goldstock_name := some k.goldstock_name,
             match_status := "matched",
             confidence_score := k.confidence_score,
             match_method := "known_mapping" } := by
  have hc : companies[i]? = some (companies.get ⟨i, hi⟩) := by
    rw [List.getElem?_eq_getElem hi]
    rfl
  have hk2 : lookupKnown km companies[i].company_id = some k := hk
  constructor
  · unfold MS1.perform_matching
    rw [List.getElem?_map, hc, Option.map_some']
    simp [MS1.matchOne, knownTier, hk2, List.get_eq_getElem]
  · unfold MS2.perform_matching
    rw [if_neg hgs, List.getElem?_map, hc, Option.map_some']
    simp [MS2.matchOne, knownTier, hk2, List.get_eq_getElem]

theorem c1_known_override_witness :
    (MS1.perform_matching
        [{ company_id := 10, company_name := str2c "Agnico Eagle Mines Ltd",
           tsx_code := some (str2c "TSX:AEM") }]
        [{ goldstock_id := "99", company_name := str2c "Decoy",
           ticker := some (str2c "AEM"), aliases := [str2c "Decoy"] }]
        [(10, { goldstock_id := "8",
                goldstock_name := str2c "Agnico Eagle Mines Ltd",
                confidence_score := 100 })]
        (fun _ _ => 100))[0]? =
      some { company_id := 10, company_name := str2c "Agnico Eagle Mines Ltd",
             tsx_code := some (str2c "TSX:AEM"), goldstock_id := some "8",
             goldstock_name := some (str2c "Agnico Eagle Mines Ltd"),
             match_status := "matched", confidence_score := 100,
             match_method := "known_mapping" } ∧
    (MS2.perform_matching
        [{ company_id := 10, company_name := str2c "Agnico Eagle Mines Ltd",
           tsx_code := some (str2c "TSX:AEM") }]
        [{ goldstock_id := "99", company_name := str2c "Decoy",
           ticker := some (str2c "AEM"), aliases := [str2c "Decoy"] }]
        [(10, { goldstock_id := "8",
                goldstock_name := str2c "Agnico Eagle Mines Ltd",
                confidence_score := 100 })]
        (fun _ _ => 100))[0]? =
      some { company_id := 10, company_name := str2c "Agnico Eagle Mines Ltd",
             tsx_code := some (str2c "TSX:AEM"), goldstock_id := some "8",
             goldstock_name := some (str2c "Agnico Eagle Mines Ltd"),
             match_status := "matched", confidence_score := 100,
             match_method := "known_mapping" } :=
  c1_known_override
    [{ company_id := 10, company_name := str2c "Agnico Eagle Mines Ltd",
       tsx_code := some (str2c "TSX:AEM") }]
    [{ goldstock_id := "99", company_name := str2c "Decoy",
       ticker := some (str2c "AEM"), aliases := [str2c "Decoy"] }]
    [{ goldstock_id := "99", company_name := str2c "Decoy",
       ticker := some (str2c "AEM"), aliases := [str2c "Decoy"] }]
    [(10, { goldstock_id := "8",
            goldstock_name := str2c "Agnico Eagle Mines Ltd",
            confidence_score := 100 })]
    (fun _ _ => 100) (fun _ _ => 100) 0 (by decide)
    { goldstock_id := "8", goldstock_name := str2c "Agnico Eagle Mines Ltd",
      confidence_score := 100 }
    (by decide) (by decide)

/-- C2: Every `Mapping` emitted by either variant's resolution engine, with an
override table whose supplied confidences are positive, satisfies the four-way
equivalence `status = unmatched ⇔ goldstock_id = None ⇔ method = none ⇔
confidence = 0` (so every matched or manual outcome has an id, a real method
and a positive confidence). -/
theorem c2_outcome_invariant (companies : List Company)
    (gsList1 gsList2 : List GoldstockCompany) (km : List (Int × KnownMapping))
    (score1 score2 : PyStr → PyStr → Nat)
    (hpos : ∀ p ∈ km, 0 < p.2.confidence_score) :
    (∀ m ∈ MS1.perform_matching companies gsList1 km score1, OutcomeInv m) ∧
    (∀ m ∈ MS2.perform_matching companies gsList2 km score2, OutcomeInv m) := by
  constructor
  · intro m hm
    unfold MS1.perform_matching at hm
    obtain ⟨c, _, rfl⟩ := List.mem_map.mp hm
    exact ms1_matchOne_inv hpos
  · intro m hm
    unfold MS2.perform_matching at hm
    split at hm
    · cases hm
    · obtain ⟨c, _, rfl⟩ := List.mem_map.mp hm
      exact ms2_matchOne_inv hpos

theorem c2_outcome_invariant_witness :
    OutcomeInv
      (MS1.matchOne
        [(8, { goldstock_id := "1", goldstock_name := str2c "Abcourt Mines Inc",
               confidence_score := 100 })]
        (buildTickerIndexWith MS1.normalize_ticker
          [{ goldstock_id := "7", company_name := str2c "Zeta Gold Corp",
             ticker := some (str2c "ZG.V"), aliases := [str2c "Zeta Gold Corp"] }])
        (buildNameIndexWith MS1.normalize_name
          [{ goldstock_id := "7", company_name := str2c "Zeta Gold Corp",
             ticker := some (str2c "ZG.V"), aliases := [str2c "Zeta Gold Corp"] }])
        [{ goldstock_id := "7", company_name := str2c "Zeta Gold Corp",
           ticker := some (str2c "ZG.V"), aliases := [str2c "Zeta Gold Corp"] }]
        (fun _ _ => 40)
        { company_id := 1, company_name := str2c "Unrelated Name",
          tsx_code := none }) :=
  (c2_outcome_invariant
      [{ company_id := 1, company_name := str2c "Unrelated Name", tsx_code := none }]
      [{ goldstock_id := "7", company_name := str2c "Zeta Gold Corp",
         ticker := some (str2c "ZG.V"), aliases := [str2c "Zeta Gold Corp"] }]
      [{ goldstock_id := "7", company_name := str2c "Zeta Gold Corp",
         ticker := some (str2c "ZG.V"), aliases := [str2c "Zeta Gold Corp"] }]
      [(8, { goldstock_id := "1", goldstock_name := str2c "Abcourt Mines Inc",
             confidence_score := 100 })]
      (fun _ _ => 40) (fun _ _ => 40) (by decide)).1
    _ (by simp [MS1.perform_matching])

/-- The extended variant does satisfy C9: with every entity id covered by the
checkpoint, the resume filter leaves an empty work list, so the per-entity
loop (and hence its checkpoint-overwriting save) never runs, the engine
produces no new mappings, and the final table equals the checkpoint's
mappings, unchanged and in order. -/
theorem ms2_resume_empty_work (companies : List Company) (cp : Checkpoint)
    (gsList : List GoldstockCompany) (km : List (Int × KnownMapping))
    (score : PyStr → PyStr → Nat)
    (hall : ∀ c ∈ companies, c.company_id ∈ cp.processed_ids)
    (hne : companies ≠ []) (hgs : gsList ≠ []) :
    resumeWorkList true cp companies = [] ∧
    MS2.perform_matching (resumeWorkList true cp companies) gsList km score = [] ∧
    MS2.runMain true companies cp gsList km score = some cp.mappings := by
  have hpid : cp.processed_ids ≠ [] := by
    obtain ⟨c, hc⟩ := List.exists_mem_of_ne_nil companies hne
    intro h0
    have := hall c hc
    rw [h0] at this
    cases this
  have hwork : resumeWorkList true cp companies = [] := by
    unfold resumeWorkList
    rw [if_pos ⟨rfl, hpid⟩]
    rw [List.filter_eq_nil_iff]
    intro c hc
    simp [hall c hc]
  have hpm : MS2.perform_matching (resumeWorkList true cp companies) gsList km score = [] := by
    rw [hwork]
    unfold MS2.perform_matching
    split <;> simp
  refine ⟨hwork, hpm, ?_⟩
  unfold MS2.runMain
  rw [if_neg hne, if_neg hgs, hpm]
  unfold MS2.checkpointAfterMatching
  by_cases hm : cp.mappings = []
  · simp [hm, hwork]
  · simp [hm, hwork]

/-- C9 (claim is right, `mapping_script.py` is wrong): the spec (§4.7, §8)
says a fully-resumed run re-emits the checkpoint's mappings unchanged, and
the extended variant does exactly that (no entity is processed, so the
checkpoint survives to `main`'s merge).  But in the strict variant
`perform_matching` ends with an unconditional `matcher.save_checkpoint(
mappings)` (line 544), so a fully-resumed run executes `save_checkpoint([])`,
clearing `matcher.checkpoint['mappings']`; `main`'s merge guard (line 647)
then fails, nothing is prepended, and `save_mappings([])` writes an empty
output table (after which the summary divides by zero).  Evaluated here on a
concrete one-entity input fully covered by the checkpoint: the strict driver
outputs `[]` while the checkpoint's mappings are non-empty, and the extended
driver outputs exactly the checkpoint's mappings. -/
theorem c9_resume_output_bug :
    MS1.runMain true
        [{ company_id := 5, company_name := str2c "Alpha Co", tsx_code := none }]
        { processed_ids := [5],
          mappings := [{ company_id := 5, company_name := str2c "Alpha Co",
                         tsx_code := none, goldstock_id := some "3",
                         goldstock_name := some (str2c "Alpha Company"),
                         match_status := "matched", confidence_score := 95,
                         match_method := "exact_name" }] }
        [{ goldstock_id := "3", company_name := str2c "Alpha Company",
           ticker := none, aliases := [] }]
        [] (fun _ _ => 0) = some [] ∧
    ([{ company_id := 5, company_name := str2c "Alpha Co",
        tsx_code := none, goldstock_id := some "3",
        goldstock_name := some (str2c "Alpha Company"),
        match_status := "matched", confidence_score := 95,
        match_method := "exact_name" }] : List Mapping) ≠ [] ∧
    MS2.runMain true
        [{ company_id := 5, company_name := str2c "Alpha Co", tsx_code := none }]
        { processed_ids := [5],
          mappings := [{ company_id := 5, company_name := str2c "Alpha Co",
                         tsx_code := none, goldstock_id := some "3",
                         goldstock_name := some (str2c "Alpha Company"),
                         match_status := "matched", confidence_score := 95,
                         match_method := "exact_name" }] }
        [{ goldstock_id := "3", company_name := str2c "Alpha Company",
           ticker := none, aliases := [] }]
        [] (fun _ _ => 0) =
      some [{ company_id := 5, company_name := str2c "Alpha Co",
              tsx_code := none, goldstock_id := some "3",
              goldstock_name := some (str2c "Alpha Company"),
              match_status := "matched", confidence_score := 95,
              match_method := "exact_name" }] := by
  refine ⟨by decide, by decide, by decide⟩

/-- C8: Loading persisted state never fails: an absent file or one whose
contents the (abstract, exception-throwing) parser rejects yields `{}` for the
cache and `{processed_ids: [], mappings: []}` for the checkpoint, and a
parseable file yields its parse — `load_cache`/`load_checkpoint` are total
functions, so no input raises. -/
theorem c8_load_state_total (parseC : PyStr → Option Cache)
    (parseCp : PyStr → Option Checkpoint) :
    load_cache parseC none = [] ∧
    load_checkpoint parseCp none = { processed_ids := [], mappings := [] } ∧
    (∀ s, parseC s = none → load_cache parseC (some s) = []) ∧
    (∀ s, parseCp s = none →
      load_checkpoint parseCp (some s) = { processed_ids := [], mappings := [] }) ∧
    (∀ s d, parseC s = some d → load_cache parseC (some s) = d) ∧
    (∀ s cp, parseCp s = some cp → load_checkpoint parseCp (some s) = cp) := by
  refine ⟨rfl, rfl, ?_, ?_, ?_, ?_⟩
  · intro s h; simp [load_cache, h]
  · intro s h; simp [load_checkpoint, h]
  · intro s d h; simp [load_cache, h]
  · intro s cp h; simp [load_checkpoint, h]

theorem c8_load_state_total_witness :
    load_cache (fun _ => none) (some (str2c "this is not json")) = [] ∧
    load_checkpoint (fun _ => none) (some (str2c "this is not json")) =
      { processed_ids := [], mappings := [] } ∧
    load_cache (fun _ => none) none = [] :=
  ⟨(c8_load_state_total (fun _ => none) (fun _ => none)).2.2.1
      (str2c "this is not json") rfl,
   (c8_load_state_total (fun _ => none) (fun _ => none)).2.2.2.1
      (str2c "this is not json") rfl,
   (c8_load_state_total (fun _ => none) (fun _ => none)).1⟩

/-- C6 (claim is right, `mapping_script.py` is wrong): in the strict variant a
404-confirmed absence cached during a run need not be persisted — the 404
branch of `fetch_company_by_id` performs no periodic save and `main` never
calls `save_cache` at the end of a run — so a second run sharing the cache
file invokes the fetcher again for that id.  Concretely: a run over external
id 1 against a 404-answering fetcher creates the null cache entry `(1, none)`
in memory, ends with an empty persisted cache, and a follow-up run starting
from that persisted cache calls the fetcher for id 1 again. -/
theorem c6_cache_not_persisted :
    (runFetch (fun _ => FetchOutcome.notFound)
        { mem := [], disk := [], called := [] } [1]).1.mem = [(1, none)] ∧
    (runFetch (fun _ => FetchOutcome.notFound)
        { mem := [], disk := [], called := [] } [1]).1.disk = [] ∧
    (fetchStep (fun _ => FetchOutcome.notFound)
        { mem := (runFetch (fun _ => FetchOutcome.notFound)
                    { mem := [], disk := [], called := [] } [1]).1.disk,
          disk := (runFetch (fun _ => FetchOutcome.notFound)
                    { mem := [], disk := [], called := [] } [1]).1.disk,
          called := [] } 1).1.called = [1] :=
  ⟨rfl, rfl, rfl⟩

theorem knownTier_method {km : List (Int × KnownMapping)} {c : Company} {m : Mapping}
    (h : knownTier km c = some m) : m.match_method = "known_mapping" := by
  unfold knownTier at h
  rw [Option.map_eq_some'] at h
  obtain ⟨k, _, rfl⟩ := h
  rfl

theorem nameTier_method {norm : Option PyStr → PyStr} {nIdx : Index} {c : Company}
    {m : Mapping} (h : nameTierWith norm nIdx c = some m) :
    m.match_method = "exact_name" := by
  unfold nameTierWith at h
  rw [Option.map_eq_some'] at h
  obtain ⟨gs, _, rfl⟩ := h
  rfl

theorem ms2_fuzzyTier_method {gsList : List GoldstockCompany}
    {score : PyStr → PyStr → Nat} {c : Company} {m : Mapping}
    (h : MS2.fuzzyTier gsList score c = some m) : m.match_method = "fuzzy_name" := by
  simp only [MS2.fuzzyTier] at h
  split at h
  · split at h
    · cases h
    · split at h
      · cases h
      · cases h; rfl
  · cases h

/-- Every key inserted into `gs_by_ticker` is non-empty. -/
theorem buildTickerIndex_keys_ne_nil (norm : Option PyStr → Option PyStr)
    (gsList : List GoldstockCompany) :
    ∀ p ∈ buildTickerIndexWith norm gsList, p.1 ≠ [] := by
  unfold buildTickerIndexWith
  suffices h : ∀ (l : List GoldstockCompany) (idx : Index),
      (∀ p ∈ idx, p.1 ≠ []) →
      ∀ p ∈ l.foldl (fun idx gs =>
        match gs.ticker with
        | none => idx
        | some t =>
          if t = [] then idx
          else
            match norm (some t) with
            | none => idx
            | some nt => if nt = [] then idx else idx ++ [(nt, gs)]) idx, p.1 ≠ [] by
    exact h gsList [] (by simp)
  intro l
  induction l with
  | nil => intro idx hidx p hp; exact hidx p hp
  | cons gs rest ih =>
    intro idx hidx p hp
    refine ih _ ?_ p hp
    intro q hq
    cases hgt : gs.ticker with
    | none => simp only [hgt] at hq; exact hidx q hq
    | some t =>
      simp only [hgt] at hq
      split at hq
      · exact hidx q hq
      · cases hn : norm (some t) with
        | none => simp only [hn] at hq; exact hidx q hq
        | some nt =>
          simp only [hn] at hq
          split at hq
          · exact hidx q hq
          · rcases List.mem_append.mp hq with h1 | h2
            · exact hidx q h1
            · rename_i hnt
              have : q = (nt, gs) := by simpa using h2
              rw [this]
              exact hnt

/-- C10: a non-empty ticker made only of exchange decoration normalizes to the
empty string, not `None` (both variants, e.g. `"TSX:"`); and every consumer
guards on truthiness: the ticker-index builder never creates an entry under
the empty key, and an entity whose normalized ticker is `None` or empty can
never receive an `exact_ticker` outcome from the extended engine. -/
theorem c10_empty_ticker_safe :
    MS1.normalize_ticker (some (str2c "TSX:")) = some [] ∧
    MS2.normalize_ticker (some (str2c "TSX:")) = some [] ∧
    (∀ gsList, idxLookup (buildTickerIndexWith MS1.normalize_ticker gsList) [] = none) ∧
    (∀ gsList, idxLookup (buildTickerIndexWith MS2.normalize_ticker gsList) [] = none) ∧
    (∀ km tIdx nIdx gsList score (c : Company),
      (MS2.normalize_ticker c.tsx_code = none ∨ MS2.normalize_ticker c.tsx_code = some []) →
      (MS2.matchOne km tIdx nIdx gsList score c).match_method ≠ "exact_ticker") := by
  refine ⟨by decide, by decide, ?_, ?_, ?_⟩
  · intro gsList
    unfold idxLookup
    rw [Option.map_eq_none', List.find?_eq_none]
    intro p hp
    have := buildTickerIndex_keys_ne_nil MS1.normalize_ticker gsList p
      (List.mem_reverse.mp hp)
    simpa using this
  · intro gsList
    unfold idxLookup
    rw [Option.map_eq_none', List.find?_eq_none]
    intro p hp
    have := buildTickerIndex_keys_ne_nil MS2.normalize_ticker gsList p
      (List.mem_reverse.mp hp)
    simpa using this
  · intro km tIdx nIdx gsList score c hnt
    have htt : tickerTierWith MS2.normalize_ticker tIdx c = none := by
      unfold tickerTierWith
      rcases hnt with h | h
      · rw [h]
      · rw [h]
        simp
    unfold MS2.matchOne
    cases h1 : knownTier km c with
    | some m => simp only [knownTier_method h1]; decide
    | none =>
      rw [htt]
      cases h3 : nameTierWith MS2.normalize_name nIdx c with
      | some m => simp only [nameTier_method h3]; decide
      | none =>
        cases h4 : MS2.fuzzyTier gsList score c with
        | some m => simp only [ms2_fuzzyTier_method h4]; decide
        | none => simp [unmatchedM]

theorem c10_empty_ticker_safe_witness :
    idxLookup
        (buildTickerIndexWith MS2.normalize_ticker
          [{ goldstock_id := "4", company_name := str2c "Gamma Gold",
             ticker := some (str2c "CSE:"), aliases := [] }]) [] = none ∧
    (MS2.matchOne [] [] [] [] (fun _ _ => 0)
        { company_id := 2, company_name := str2c "", tsx_code := some (str2c "TSX:") }
      ).match_method ≠ "exact_ticker" :=
  ⟨(c10_empty_ticker_safe.2.2.2.1)
      [{ goldstock_id := "4", company_name := str2c "Gamma Gold",
         ticker := some (str2c "CSE:"), aliases := [] }],
   c10_empty_ticker_safe.2.2.2.2 [] [] [] [] (fun _ _ => 0)
      { company_id := 2, company_name := str2c "", tsx_code := some (str2c "TSX:") }
      (Or.inr (by decide))⟩

theorem ms1_fuzzyTier_eq {gsList : List GoldstockCompany} {score : PyStr → PyStr → Nat}
    {c : Company} {mn : PyStr} {s : Nat}
    (hnn : MS1.normalize_name (some c.company_name) ≠ []) (hgs : gsList ≠ [])
    (hb : extractBest score (MS1.normalize_name (some c.company_name))
        (gsList.map fun gs => MS1.normalize_name (some gs.company_name)) = some (mn, s)) :
    ∃ gs, gsList.find? (fun g => MS1.normalize_name (some g.company_name) == mn) = some gs ∧
      MS1.fuzzyTier gsList score c =
        (if 80 ≤ s then
          some { company_id := c.company_id, company_name := c.company_name,
                 tsx_code := c.tsx_code, goldstock_id := some gs.goldstock_id,
                 goldstock_name := some gs.company_name,
                 match_status := if 90 ≤ s then "matched" else "manual",
                 confidence_score := s, match_method := "fuzzy_name" }
         else none) := by
  have hmem : mn ∈ gsList.map (fun gs => MS1.normalize_name (some gs.company_name)) :=
    extractBest_mem hb
  obtain ⟨gs0, hgs0, hf0⟩ := List.mem_map.mp hmem
  have hsome : (gsList.find? (fun g => MS1.normalize_name (some g.company_name) == mn)).isSome :=
    List.find?_isSome.mpr ⟨gs0, hgs0, by simp [hf0]⟩
  obtain ⟨gs, hgs1⟩ := Option.isSome_iff_exists.mp hsome
  refine ⟨gs, hgs1, ?_⟩
  have heo : extractOne score (MS1.normalize_name (some c.company_name))
      (gsList.map fun gs => MS1.normalize_name (some gs.company_name)) 0 = some (mn, s) := by
    unfold extractOne
    rw [hb]
    simp
  simp only [MS1.fuzzyTier]
  rw [if_pos ⟨hnn, hgs⟩]
  simp only [heo, hgs1]

theorem ms2_fuzzyTier_eq {gsList : List GoldstockCompany} {score : PyStr → PyStr → Nat}
    {c : Company} {mn : PyStr} {s : Nat}
    (hnn : MS2.normalize_name (some c.company_name) ≠ [])
    (hb : extractBest score (MS2.normalize_name (some c.company_name))
        (gsList.map fun gs => MS2.normalize_name (some gs.company_name)) = some (mn, s)) :
    ∃ gs, gsList.find? (fun g => MS2.normalize_name (some g.company_name) == mn) = some gs ∧
      MS2.fuzzyTier gsList score c =
        (if 70 ≤ s then
          some { company_id := c.company_id, company_name := c.company_name,
                 tsx_code := c.tsx_code, goldstock_id := some gs.goldstock_id,
                 goldstock_name := some gs.company_name,
                 match_status := if 85 ≤ s then "matched" else "manual",
                 confidence_score := s, match_method := "fuzzy_name" }
         else none) := by
  have hmem : mn ∈ gsList.map (fun gs => MS2.normalize_name (some gs.company_name)) :=
    extractBest_mem hb
  obtain ⟨gs0, hgs0, hf0⟩ := List.mem_map.mp hmem
  have hsome : (gsList.find? (fun g => MS2.normalize_name (some g.company_name) == mn)).isSome :=
    List.find?_isSome.mpr ⟨gs0, hgs0, by simp [hf0]⟩
  obtain ⟨gs, hgs1⟩ := Option.isSome_iff_exists.mp hsome
  refine ⟨gs, hgs1, ?_⟩
  simp only [MS2.fuzzyTier]
  rw [if_pos hnn]
  by_cases h70 : 70 ≤ s
  · have heo : extractOne score (MS2.normalize_name (some c.company_name))
        (gsList.map fun gs => MS2.normalize_name (some gs.company_name)) 70 = some (mn, s) := by
      unfold extractOne
      rw [hb]
      simp only [if_pos h70]
    simp only [heo, hgs1]
    rw [if_pos h70]
  · have heo : extractOne score (MS2.normalize_name (some c.company_name))
        (gsList.map fun gs => MS2.normalize_name (some gs.company_name)) 70 = none := by
      unfold extractOne
      rw [hb]
      simp only [if_neg h70]
    simp only [heo]
    rw [if_neg h70]

/-- C3: In the fuzzy-name tier, for every entity that reached it (no override
entry, ticker and exact-name tiers missed) with a non-empty normalized name
and a non-empty external record list, the best-scoring candidate (`extractBest`,
first maximum) is accepted only if its score meets the variant's floor (80
strict / 70 extended); when accepted the outcome carries
`method = "fuzzy_name"`, `confidence = score` and `status = "matched"` iff the
score is at least 90 (strict) / 85 (extended), else `"manual"`; below the
floor the outcome is the unmatched default (confidence 0). -/
theorem c3_fuzzy_tier (km : List (Int × KnownMapping)) (tIdx1 nIdx1 tIdx2 nIdx2 : Index)
    (gsList : List GoldstockCompany) (score1 score2 : PyStr → PyStr → Nat)
    (c : Company) (hkm : lookupKnown km c.company_id = none) (hgs : gsList ≠ []) :
    (tickerTierWith MS1.normalize_ticker tIdx1 c = none →
     nameTierWith MS1.normalize_name nIdx1 c = none →
     MS1.normalize_name (some c.company_name) ≠ [] →
     ∀ mn s, extractBest score1 (MS1.normalize_name (some c.company_name))
         (gsList.map fun gs => MS1.normalize_name (some gs.company_name)) = some (mn, s) →
       (80 ≤ s →
         ∃ gs, gsList.find? (fun g => MS1.normalize_name (some g.company_name) == mn) = some gs ∧
           MS1.matchOne km tIdx1 nIdx1 gsList score1 c =
             { company_id := c.company_id, company_name := c.company_name,
               tsx_code := c.tsx_code, goldstock_id := some gs.goldstock_id,
               goldstock_name := some gs.company_name,
               match_status := if 90 ≤ s then "matched" else "manual",
               confidence_score := s, match_method := "fuzzy_name" }) ∧
       (s < 80 → MS1.matchOne km tIdx1 nIdx1 gsList score1 c = unmatchedM c)) ∧
    (tickerTierWith MS2.normalize_ticker tIdx2 c = none →
     nameTierWith MS2.normalize_name nIdx2 c = none →
     MS2.normalize_name (some c.company_name) ≠ [] →
     ∀ mn s, extractBest score2 (MS2.normalize_name (some c.company_name))
         (gsList.map fun gs => MS2.normalize_name (some gs.company_name)) = some (mn, s) →
       (70 ≤ s →
         ∃ gs, gsList.find? (fun g => MS2.normalize_name (some g.company_name) == mn) = some gs ∧
           MS2.matchOne km tIdx2 nIdx2 gsList score2 c =
             { company_id := c.company_id, company_name := c.company_name,
               tsx_code := c.tsx_code, goldstock_id := some gs.goldstock_id,
               goldstock_name := some gs.company_name,
               match_status := if 85 ≤ s then "matched" else "manual",
               confidence_score := s, match_method := "fuzzy_name" }) ∧
       (s < 70 → MS2.matchOne km tIdx2 nIdx2 gsList score2 c = unmatchedM c)) := by
  have hk0 : knownTier km c = none := by
    unfold knownTier
    rw [hkm]
    rfl
  constructor
  · intro ht hn hnn mn s hb
    obtain ⟨gs, hfind, hft⟩ := ms1_fuzzyTier_eq hnn hgs hb
    constructor
    · intro h80
      refine ⟨gs, hfind, ?_⟩
      simp only [MS1.matchOne, hk0, ht, hn, hft, if_pos h80]
    · intro hlt
      have h80 : ¬ 80 ≤ s := by omega
      simp only [MS1.matchOne, hk0, ht, hn, hft, if_neg h80]
  · intro ht hn hnn mn s hb
    obtain ⟨gs, hfind, hft⟩ := ms2_fuzzyTier_eq hnn hb
    constructor
    · intro h70
      refine ⟨gs, hfind, ?_⟩
      simp only [MS2.matchOne, hk0, ht, hn, hft, if_pos h70]
    · intro hlt
      have h70 : ¬ 70 ≤ s := by omega
      simp only [MS2.matchOne, hk0, ht, hn, hft, if_neg h70]

theorem c3_fuzzy_tier_witness :
    MS1.matchOne [] [] []
        [{ goldstock_id := "374", company_name := str2c "Probe Gold Corp",
           ticker := none, aliases := [] }]
        (fun _ _ => 78)
        { company_id := 331, company_name := str2c "Probe Gold Inc.", tsx_code := none } =
      unmatchedM
        { company_id := 331, company_name := str2c "Probe Gold Inc.", tsx_code := none } ∧
    MS2.matchOne [] [] []
        [{ goldstock_id := "374", company_name := str2c "Probe Gold Corp",
           ticker := none, aliases := [] }]
        (fun _ _ => 78)
        { company_id := 331, company_name := str2c "Probe Gold Inc.", tsx_code := none } =
      { company_id := 331, company_name := str2c "Probe Gold Inc.", tsx_code := none,
        goldstock_id := some "374", goldstock_name := some (str2c "Probe Gold Corp"),
        match_status := "manual", confidence_score := 78,
        match_method := "fuzzy_name" } := by
  have h := c3_fuzzy_tier [] [] [] [] []
    [{ goldstock_id := "374", company_name := str2c "Probe Gold Corp",
       ticker := none, aliases := [] }]
    (fun _ _ => 78) (fun _ _ => 78)
    { company_id := 331, company_name := str2c "Probe Gold Inc.", tsx_code := none }
    rfl (by simp)
  constructor
  · exact (h.1 rfl rfl (by decide) (str2c "probe") 78 (by decide)).2 (by omega)
  · obtain ⟨gs, hfind, heq⟩ :=
      (h.2 rfl rfl (by decide) (str2c "probe") 78 (by decide)).1 (by omega)
    have hgs : gs = { goldstock_id := "374", company_name := str2c "Probe Gold Corp",
                      ticker := none, aliases := [] } := by
      have := hfind
      simp only [List.find?] at this
      split at this
      · cases this; rfl
      · cases this
    rw [heq, hgs]
    rfl

theorem parenSegmentsAux_some_mem {l : PyStr} :
    ∀ {b seg : PyStr}, seg ∈ parenSegmentsAux (some b) l → 41 ∈ l := by
  induction l with
  | nil => intro b seg h; cases h
  | cons c rest ih =>
    intro b seg h
    rw [parenSegmentsAux] at h
    by_cases hc : c = 41
    · simp [hc]
    · rw [if_neg hc] at h
      exact List.mem_cons_of_mem c (ih h)

/-- A parenthetical segment can only come from a name containing both `(` and
`)`. -/
theorem parenSegments_chars {l : PyStr} :
    ∀ {seg : PyStr}, seg ∈ parenSegments l → 40 ∈ l ∧ 41 ∈ l := by
  unfold parenSegments
  induction l with
  | nil => intro seg h; cases h
  | cons c rest ih =>
    intro seg h
    rw [parenSegmentsAux] at h
    by_cases hc : c = 40
    · rw [if_pos hc] at h
      exact ⟨by simp [hc], List.mem_cons_of_mem c (parenSegmentsAux_some_mem h)⟩
    · rw [if_neg hc] at h
      obtain ⟨h40, h41⟩ := ih h
      exact ⟨List.mem_cons_of_mem c h40, List.mem_cons_of_mem c h41⟩

set_option maxHeartbeats 2000000 in
/-- C7 counterexample: the claim fails on the strict variant's alias expander,
which never adds the contents of a parenthetical segment: `"AB Gold"` is a
parenthetical segment of `"Alpha Beta (AB Gold)"` but is not among its
aliases. -/
theorem c7_paren_contents_counterexample :
    str2c "AB Gold" ∈ parenSegments (str2c "Alpha Beta (AB Gold)") ∧
    str2c "AB Gold" ∉ MS1.extract_company_aliases (str2c "Alpha Beta (AB Gold)") := by
  decide

theorem mem_ite_app {x : PyStr} {l e : List PyStr} (c : Prop) [Decidable c]
    (h : x ∈ l) : x ∈ (if c then l ++ e else l) := by
  split
  · exact List.mem_append_left _ h
  · exact h

theorem mem_ite_ite_app {x : PyStr} {l e : List PyStr} (c1 c2 : Prop) [Decidable c1]
    [Decidable c2] (h : x ∈ l) : x ∈ (if c1 then (if c2 then l ++ e else l) else l) := by
  split
  · exact mem_ite_app c2 h
  · exact h

/-- C7 amended: both alias expanders return the name itself and (when the name
has a parenthetical and the stripped remainder is non-empty) the name with
parenthetical segments removed; only the extended variant additionally returns
the contents of each parenthetical segment as a standalone alias — the strict
variant does not. -/
theorem c7_paren_contents_amended (name : PyStr) :
    name ∈ MS1.extract_company_aliases name ∧
    name ∈ MS2.extract_company_aliases name ∧
    (∀ seg ∈ parenSegments name, seg ∈ MS2.extract_company_aliases name) ∧
    (40 ∈ name → 41 ∈ name → stripP (parenRemove name) ≠ [] →
      stripP (parenRemove name) ∈ MS1.extract_company_aliases name ∧
      stripP (parenRemove name) ∈ MS2.extract_company_aliases name) := by
  refine ⟨?_, ?_, ?_, ?_⟩
  · simp only [MS1.extract_company_aliases, List.mem_dedup]
    apply mem_ite_app
    apply mem_ite_app
    apply mem_ite_ite_app
    apply mem_ite_ite_app
    exact List.mem_singleton.mpr rfl
  · simp only [MS2.extract_company_aliases, List.mem_dedup]
    apply mem_ite_app
    apply mem_ite_app
    apply mem_ite_ite_app
    split
    · exact List.mem_append_left _ (mem_ite_app _ (List.mem_singleton.mpr rfl))
    · exact List.mem_singleton.mpr rfl
  · intro seg hseg
    obtain ⟨h40, h41⟩ := parenSegments_chars hseg
    simp only [MS2.extract_company_aliases, List.mem_dedup]
    apply mem_ite_app
    apply mem_ite_app
    apply mem_ite_ite_app
    rw [if_pos ⟨h40, h41⟩]
    exact List.mem_append_right _ hseg
  · intro h40 h41 hclean
    constructor
    · simp only [MS1.extract_company_aliases, List.mem_dedup]
      apply mem_ite_app
      apply mem_ite_app
      apply mem_ite_ite_app
      rw [if_pos ⟨h40, h41⟩, if_pos hclean]
      exact List.mem_append_right _ (List.mem_singleton.mpr rfl)
    · simp only [MS2.extract_company_aliases, List.mem_dedup]
      apply mem_ite_app
      apply mem_ite_app
      apply mem_ite_ite_app
      rw [if_pos ⟨h40, h41⟩]
      apply List.mem_append_left
      rw [if_pos hclean]
      exact List.mem_append_right _ (List.mem_singleton.mpr rfl)

theorem c7_paren_contents_amended_witness :
    str2c "AB Gold" ∈ MS2.extract_company_aliases (str2c "Alpha Beta (AB Gold)") ∧
    str2c "Alpha Beta" ∈ MS1.extract_company_aliases (str2c "Alpha Beta (AB Gold)") ∧
    str2c "Alpha Beta" ∈ MS2.extract_company_aliases (str2c "Alpha Beta (AB Gold)") :=
  ⟨(c7_paren_contents_amended (str2c "Alpha Beta (AB Gold)")).2.2.1
      (str2c "AB Gold") (by decide),
   ((c7_paren_contents_amended (str2c "Alpha Beta (AB Gold)")).2.2.2
      (by decide) (by decide) (by decide)).1,
   ((c7_paren_contents_amended (str2c "Alpha Beta (AB Gold)")).2.2.2
      (by decide) (by decide) (by decide)).2⟩

/-! ## Claims C4/C5: idempotence of the normalizers -/

theorem map_eq_self_of_mem {f : Nat → Nat} :
    ∀ {l : PyStr}, (∀ c ∈ l, f c = c) → l.map f = l := by
  intro l
  induction l with
  | nil => intro _; rfl
  | cons c rest ih =>
    intro h
    simp only [List.map_cons]
    rw [h c (by simp), ih (fun d hd => h d (List.mem_cons_of_mem c hd))]

/-- C4 counterexample: `normalize_ticker` is not idempotent in either variant.
Only one exchange prefix is stripped per call, so `"TSX:CVE:ABC"` normalizes
to `"CVE:ABC"`, which a second call strips again to `"ABC"`. -/
theorem c4_ticker_idem_counterexample :
    MS1.normalize_ticker (MS1.normalize_ticker (some (str2c "TSX:CVE:ABC"))) ≠
      MS1.normalize_ticker (some (str2c "TSX:CVE:ABC")) ∧
    MS2.normalize_ticker (MS2.normalize_ticker (some (str2c "TSX:CVE:ABC"))) ≠
      MS2.normalize_ticker (some (str2c "TSX:CVE:ABC")) := by
  decide

/-- The outputs on which `normalize_ticker` is stable: non-empty, free of the
decoration codepoints `:` (58), `.` (46), `-` (45), `_` (95), made of
upper-stable characters, and trimmed.  Every output of the main normalization
path satisfies all of this unless it retains a stacked `CODE:` prefix. -/
def tickerClean (y : PyStr) : Bool :=
  !y.isEmpty &&
  y.all (fun c => !(c == 58 || c == 46 || c == 45 || c == 95) && upperC c == c) &&
  (stripP y == y)

theorem tickerClean_spec {y : PyStr} (h : tickerClean y = true) :
    y ≠ [] ∧ (∀ c ∈ y, c ≠ 58 ∧ c ≠ 46 ∧ c ≠ 45 ∧ c ≠ 95 ∧ upperC c = c) ∧
    stripP y = y := by
  unfold tickerClean at h
  rw [Bool.and_eq_true, Bool.and_eq_true] at h
  obtain ⟨⟨h1, h2⟩, h3⟩ := h
  refine ⟨by simpa using h1, ?_, by simpa using h3⟩
  intro c hc
  have hall := List.all_eq_true.mp h2 c hc
  rw [Bool.and_eq_true] at hall
  obtain ⟨ha, hb⟩ := hall
  refine ⟨?_, ?_, ?_, ?_, by simpa using hb⟩
  · intro hcc; subst hcc; simp at ha
  · intro hcc; subst hcc; simp at ha
  · intro hcc; subst hcc; simp at ha
  · intro hcc; subst hcc; simp at ha

/-- The shared normalization core fixes any `tickerClean` string: no prefix or
suffix alternation can match (it would need a `:` or `.`), the punctuation
filter keeps everything, and trimming and upper-casing change nothing. -/
theorem tickerCore_fix (pres sufs : List PyStr) {y : PyStr}
    (h : tickerClean y = true) : tickerCore pres sufs y = y := by
  obtain ⟨hne, hall, hstrip⟩ := tickerClean_spec h
  have hmap : y.map upperC = y := map_eq_self_of_mem (fun c hc => (hall c hc).2.2.2.2)
  have hpre : stripExchangePre pres y = y := by
    unfold stripExchangePre
    rw [List.find?_eq_none.mpr ?_]
    intro code _
    rw [hmap]
    intro habs
    have hp : (code ++ [58]) <+: y := List.isPrefixOf_iff_prefix.mp habs
    have h58 : (58 : Nat) ∈ y := hp.sublist.mem (by simp)
    exact (hall 58 h58).1 rfl
  have hsuf : stripExchangeSuf sufs y = y := by
    unfold stripExchangeSuf
    rw [List.find?_eq_none.mpr ?_]
    intro code _
    rw [hmap]
    intro habs
    have hp : (46 :: code) <:+ y := List.isSuffixOf_iff_suffix.mp habs
    have h46 : (46 : Nat) ∈ y := hp.sublist.mem (by simp)
    exact (hall 46 h46).2.1 rfl
  have hfilter : y.filter (fun c => !(c == 46 || c == 45 || c == 95)) = y := by
    rw [List.filter_eq_self]
    intro c hc
    obtain ⟨_, h46, h45, h95, _⟩ := hall c hc
    simp [h46, h45, h95]
  simp only [tickerCore]
  rw [hpre, hsuf, hfilter, hstrip, hmap]

/-- C4 amended: `normalize_ticker` is not idempotent in general — an input
with stacked exchange decorations normalizes to a string that still carries a
decoration, which a second call strips further (see the counterexample).  It
is idempotent on every input whose output is non-empty and free of residual
decoration or punctuation characters (`:`/`.`/`-`/`_`), which (being already
upper-cased and trimmed) both variants then leave unchanged. -/
theorem c4_ticker_idem_amended (x y : PyStr) :
    (MS1.normalize_ticker (some x) = some y → tickerClean y = true →
      MS1.normalize_ticker (MS1.normalize_ticker (some x)) =
        MS1.normalize_ticker (some x)) ∧
    (MS2.normalize_ticker (some x) = some y → tickerClean y = true →
      MS2.normalize_ticker (MS2.normalize_ticker (some x)) =
        MS2.normalize_ticker (some x)) := by
  constructor
  · intro hx hy
    rw [hx]
    obtain ⟨hne, hall, _⟩ := tickerClean_spec hy
    show MS1.normalize_ticker (some y) = some y
    simp only [MS1.normalize_ticker]
    rw [if_neg hne, if_neg ?_, tickerCore_fix _ _ hy]
    intro habs
    have hp : str2c ".CN" <:+ y := List.isSuffixOf_iff_suffix.mp habs
    have h46 : (46 : Nat) ∈ y := hp.sublist.mem (by decide)
    exact (hall 46 h46).2.1 rfl
  · intro hx hy
    rw [hx]
    obtain ⟨hne, _, _⟩ := tickerClean_spec hy
    show MS2.normalize_ticker (some y) = some y
    simp only [MS2.normalize_ticker]
    rw [if_neg hne, tickerCore_fix _ _ hy]

theorem c4_ticker_idem_amended_witness :
    MS1.normalize_ticker (MS1.normalize_ticker (some (str2c "TSX:ABC.V"))) =
      MS1.normalize_ticker (some (str2c "TSX:ABC.V")) ∧
    MS2.normalize_ticker (MS2.normalize_ticker (some (str2c "TSX:ABC.V"))) =
      MS2.normalize_ticker (some (str2c "TSX:ABC.V")) :=
  ⟨(c4_ticker_idem_amended (str2c "TSX:ABC.V") (str2c "ABC")).1 (by decide) (by decide),
   (c4_ticker_idem_amended (str2c "TSX:ABC.V") (str2c "ABC")).2 (by decide) (by decide)⟩

theorem rstripP_pre (u : PyStr) : rstripP u <+: u := by
  unfold rstripP
  have h := List.reverse_prefix.mpr (List.dropWhile_suffix (l := u.reverse) isWs)
  simpa using h

theorem rstripP_sublist (u : PyStr) : (rstripP u).Sublist u := (rstripP_pre u).sublist

theorem stripP_sublist (l : PyStr) : (stripP l).Sublist l :=
  (rstripP_sublist (lstripP l)).trans (List.dropWhile_sublist _)

theorem tryStripEnding_sublist {ending s r : PyStr}
    (h : tryStripEnding ending s = some r) : r.Sublist s := by
  simp only [tryStripEnding] at h
  split at h
  · split at h
    · cases h
      exact (rstripP_sublist _).trans (List.take_sublist _ _)
    · cases h
  · cases h

theorem applySfx_sublist (p : PyStr × Option Nat) (s : PyStr) :
    (applySfx p s).Sublist s := by
  unfold applySfx
  split
  · split
    · rename_i heq
      exact tryStripEnding_sublist heq
    · split
      · rename_i heq
        exact tryStripEnding_sublist heq
      · exact List.Sublist.refl s
  · split
    · rename_i heq
      exact tryStripEnding_sublist heq
    · exact List.Sublist.refl s

theorem stripSuffixes_sublist (L : List (PyStr × Option Nat)) :
    ∀ s : PyStr, (stripSuffixes L s).Sublist s := by
  induction L with
  | nil => intro s; exact List.Sublist.refl s
  | cons p rest ih =>
    intro s
    exact (ih (applySfx p s)).trans (applySfx_sublist p s)

theorem mem_collapseWs {c : Nat} : ∀ {l : PyStr}, c ∈ collapseWs l → c = 32 ∨ c ∈ l := by
  intro l
  induction l with
  | nil => intro h; cases h
  | cons c1 rest ih =>
    cases rest with
    | nil =>
      intro h
      simp only [collapseWs] at h
      split at h
      · simp at h
        exact Or.inl h
      · simp at h
        exact Or.inr (by simp [h])
    | cons c2 rest2 =>
      intro h
      rw [collapseWs] at h
      split at h
      · rcases ih h with h32 | hm
        · exact Or.inl h32
        · exact Or.inr (List.mem_cons_of_mem c1 hm)
      · rcases List.mem_cons.mp h with rfl | hm
        · by_cases hw : isWs c1 = true
          · rw [if_pos hw]
            exact Or.inl rfl
          · rw [if_neg hw]
            exact Or.inr (by simp)
        · rcases ih hm with h32 | hm2
          · exact Or.inl h32
          · exact Or.inr (List.mem_cons_of_mem c1 hm2)

theorem mem_replacePunct_prop {l : PyStr} :
    ∀ c ∈ replacePunct l, (isWordC c || isWs c) = true := by
  intro c hc
  obtain ⟨d, _, he⟩ := List.mem_map.mp hc
  by_cases hP : (isWordC d || isWs d) = true
  · rw [if_pos hP] at he
    rw [← he]
    exact hP
  · rw [if_neg hP] at he
    rw [← he]
    decide

theorem mem_replacePunct {c : Nat} {l : PyStr} (hc : c ∈ replacePunct l) :
    c = 32 ∨ c ∈ l := by
  obtain ⟨d, hd, he⟩ := List.mem_map.mp hc
  by_cases hP : (isWordC d || isWs d) = true
  · rw [if_pos hP] at he
    exact Or.inr (he ▸ hd)
  · rw [if_neg hP] at he
    exact Or.inl he.symm

theorem lowerC_idem (c : Nat) : lowerC (lowerC c) = lowerC c := by
  unfold lowerC
  split
  · rename_i h
    simp only [Bool.and_eq_true, decide_eq_true_eq] at h
    rw [if_neg]
    simp only [Bool.and_eq_true, decide_eq_true_eq, not_and]
    omega
  · rfl

/-- The relation "not two adjacent whitespace characters". -/
def WsRel (a b : Nat) : Prop := ¬(isWs a = true ∧ isWs b = true)

/-- A string already in collapsed-whitespace form: every whitespace character
is a plain space and no two are adjacent. -/
def WsNorm (l : PyStr) : Prop :=
  (∀ c ∈ l, isWs c = true → c = 32) ∧ l.Chain' WsRel

theorem collapseWs_head : ∀ (c : Nat) (rest : PyStr),
    (collapseWs (c :: rest)).head? = some (if isWs c then 32 else c) := by
  intro c rest
  induction rest generalizing c with
  | nil =>
    simp only [collapseWs]
    split <;> simp_all
  | cons c2 rest2 ih =>
    rw [collapseWs]
    split
    · rename_i h
      rw [ih c2]
      simp only [Bool.and_eq_true] at h
      simp [h.1, h.2]
    · simp

theorem wsNorm_collapseWs : ∀ l : PyStr, WsNorm (collapseWs l) := by
  intro l
  induction l with
  | nil => exact ⟨by simp [collapseWs], by simp [collapseWs]⟩
  | cons c rest ih =>
    cases rest with
    | nil =>
      constructor
      · intro d hd hws
        simp only [collapseWs] at hd
        split at hd
        · simpa using hd
        · rename_i hw
          simp only [List.mem_singleton] at hd
          subst hd
          exact absurd hws hw
      · simp only [collapseWs]
        split <;> simp
    | cons c2 rest2 =>
      rw [collapseWs]
      split
      · exact ih
      · rename_i hnb
        obtain ⟨ihm, ihc⟩ := ih
        constructor
        · intro d hd hws
          rcases List.mem_cons.mp hd with rfl | hdm
          · by_cases hc : isWs c = true
            · rw [if_pos hc]
            · rw [if_neg hc] at hws ⊢
              exact absurd hws hc
          · exact ihm d hdm hws
        · rw [List.chain'_cons']
          refine ⟨?_, ihc⟩
          intro y hy
          rw [collapseWs_head c2 rest2] at hy
          simp only [Option.mem_def, Option.some.injEq] at hy
          subst hy
          intro hab
          obtain ⟨ha, hb⟩ := hab
          by_cases hc : isWs c = true
          · have hc2 : isWs c2 = false := by
              revert hnb
              cases hx1 : isWs c <;> cases hx2 : isWs c2 <;> simp_all
            rw [if_neg (by simp [hc2])] at hb
            rw [hc2] at hb
            cases hb
          · rw [if_neg hc] at ha
            exact hc ha

theorem collapseWs_eq_self : ∀ {l : PyStr}, WsNorm l → collapseWs l = l := by
  intro l
  induction l with
  | nil => intro _; rfl
  | cons c rest ih =>
    intro hn
    obtain ⟨hm, hc⟩ := hn
    cases rest with
    | nil =>
      simp only [collapseWs]
      by_cases hw : isWs c = true
      · rw [if_pos hw, hm c (by simp) hw]
      · rw [if_neg hw]
    | cons c2 rest2 =>
      rw [collapseWs]
      have hr : WsRel c c2 := (List.chain'_cons'.mp hc).1 c2 rfl
      rw [if_neg ?_]
      · have htl : collapseWs (c2 :: rest2) = c2 :: rest2 :=
          ih ⟨fun d hd => hm d (List.mem_cons_of_mem c hd), (List.chain'_cons'.mp hc).2⟩
        rw [htl]
        by_cases hw : isWs c = true
        · rw [if_pos hw, hm c (by simp) hw]
        · rw [if_neg hw]
      · intro habs
        simp only [Bool.and_eq_true] at habs
        exact hr habs

theorem wsNorm_inf {l l2 : PyStr} (h : WsNorm l) (hinf : l2 <:+: l) : WsNorm l2 :=
  ⟨fun c hc => h.1 c (List.Sublist.mem hc ( List.IsInfix.sublist hinf)),
   List.Chain'.infix h.2 hinf⟩

theorem stripP_inf (l : PyStr) : stripP l <:+: l :=
  List.IsInfix.trans ( List.IsPrefix.isInfix (rstripP_pre (lstripP l)))
    ( List.IsSuffix.isInfix (List.dropWhile_suffix isWs))

theorem lstripP_fix_of_prefix {l p : PyStr} (hl : lstripP l = l) (hp : p <+: l) :
    lstripP p = p := by
  cases p with
  | nil => rfl
  | cons a t =>
    obtain ⟨r, hr⟩ := hp
    have ha : isWs a = false := by
      by_contra hws
      simp only [Bool.not_eq_false] at hws
      subst hr
      rw [lstripP, List.cons_append, List.dropWhile_cons, if_pos hws] at hl
      have hle := (List.dropWhile_sublist (l := t ++ r) isWs).length_le
      have hlen := congrArg List.length hl
      simp only [List.length_cons] at hlen
      omega
    rw [lstripP, List.dropWhile_cons, if_neg (by simp [ha])]

theorem rstripP_idem (l : PyStr) : rstripP (rstripP l) = rstripP l := by
  unfold rstripP
  rw [List.reverse_reverse, List.dropWhile_idempotent]

theorem stripP_idem (l : PyStr) : stripP (stripP l) = stripP l := by
  have h1 : lstripP (stripP l) = stripP l := by
    apply lstripP_fix_of_prefix (l := lstripP l)
    · exact List.dropWhile_idempotent _ _
    · exact rstripP_pre (lstripP l)
  show rstripP (lstripP (stripP l)) = stripP l
  rw [h1]
  show rstripP (rstripP (lstripP l)) = stripP l
  rw [rstripP_idem]
  rfl

/-- Core of C5 (amended): a second `normalize_name` pass is the identity
whenever the suffix-stripping pass no longer changes the first pass's output —
the lower-casing, punctuation, whitespace-collapsing and trimming stages
always fix that output. -/
theorem normalizeNameWith_stable (L : List (PyStr × Option Nat)) (x : PyStr)
    (hfix : stripSuffixes L (normalizeNameWith L (some x)) =
      normalizeNameWith L (some x)) :
    normalizeNameWith L (some (normalizeNameWith L (some x))) =
      normalizeNameWith L (some x) := by
  by_cases hx : x = []
  · subst hx
    simp [normalizeNameWith]
  · by_cases hynil : normalizeNameWith L (some x) = []
    · rw [hynil]
      simp [normalizeNameWith]
    · have hydef : normalizeNameWith L (some x) =
          stripP (collapseWs (replacePunct (stripSuffixes L (x.map lowerC)))) := by
        simp only [normalizeNameWith]
        rw [if_neg hx]
      set y := normalizeNameWith L (some x) with hy
      have hmemy : ∀ c ∈ y, c = 32 ∨ c ∈ x.map lowerC := by
        intro c hc
        rw [hydef] at hc
        have hcw := List.Sublist.mem hc (stripP_sublist _)
        rcases mem_collapseWs hcw with h32 | hcv
        · exact Or.inl h32
        rcases mem_replacePunct hcv with h32 | hcu
        · exact Or.inl h32
        · exact Or.inr (List.Sublist.mem hcu (stripSuffixes_sublist L _))
      have hlower : y.map lowerC = y := by
        apply map_eq_self_of_mem
        intro c hc
        rcases hmemy c hc with rfl | hcm
        · decide
        · obtain ⟨d, _, rfl⟩ := List.mem_map.mp hcm
          exact lowerC_idem d
      have hword : replacePunct y = y := by
        apply map_eq_self_of_mem
        intro c hc
        have hprop : (isWordC c || isWs c) = true := by
          rw [hydef] at hc
          have hcw := List.Sublist.mem hc (stripP_sublist _)
          rcases mem_collapseWs hcw with rfl | hcv
          · decide
          · exact mem_replacePunct_prop c hcv
        rw [if_pos hprop]
      have hwsnorm : WsNorm y := by
        rw [hydef]
        exact wsNorm_inf (wsNorm_collapseWs _) (stripP_inf _)
      have hcollapse : collapseWs y = y := collapseWs_eq_self hwsnorm
      have hstrip : stripP y = y := by
        rw [hydef]
        exact stripP_idem _
      show normalizeNameWith L (some y) = y
      simp only [normalizeNameWith]
      rw [if_neg hynil, hlower, hfix, hword, hcollapse, hstrip]

/-- C5 counterexample: `normalize_name` is not idempotent in either variant.
Suffix stripping is a single ordered pass, so in `"Acme Corp Mining"` only
`mining` (later in the list) is stripped — `corp` was already passed — giving
`"acme corp"`, which a second call reduces to `"acme"`. -/
theorem c5_name_idem_counterexample :
    MS1.normalize_name (some (MS1.normalize_name (some (str2c "Acme Corp Mining")))) ≠
      MS1.normalize_name (some (str2c "Acme Corp Mining")) ∧
    MS2.normalize_name (some (MS2.normalize_name (some (str2c "Acme Corp Mining")))) ≠
      MS2.normalize_name (some (str2c "Acme Corp Mining")) := by
  decide

/-- C5 amended: `normalize_name` returns `""` (never `None`) for `None` or
empty input; it is *not* idempotent in general (a name whose trailing suffix
sits later in the ordered list than an inner one is stripped further by a
second call — see the counterexample), but it is idempotent on every input
whose normalized form the single-pass suffix stripping already fixes. -/
theorem c5_name_idem_amended :
    MS1.normalize_name none = [] ∧ MS1.normalize_name (some []) = [] ∧
    MS2.normalize_name none = [] ∧ MS2.normalize_name (some []) = [] ∧
    (∀ x, stripSuffixes MS1.nameSfx (MS1.normalize_name (some x)) =
        MS1.normalize_name (some x) →
      MS1.normalize_name (some (MS1.normalize_name (some x))) =
        MS1.normalize_name (some x)) ∧
    (∀ x, stripSuffixes MS2.nameSfx (MS2.normalize_name (some x)) =
        MS2.normalize_name (some x) →
      MS2.normalize_name (some (MS2.normalize_name (some x))) =
        MS2.normalize_name (some x)) :=
  ⟨rfl, rfl, rfl, rfl,
   fun x h => normalizeNameWith_stable MS1.nameSfx x h,
   fun x h => normalizeNameWith_stable MS2.nameSfx x h⟩

set_option maxRecDepth 4000 in
theorem c5_name_idem_amended_witness :
    MS1.normalize_name (some (MS1.normalize_name (some (str2c "Probe Gold Inc.")))) =
      MS1.normalize_name (some (str2c "Probe Gold Inc.")) ∧
    MS2.normalize_name (some (MS2.normalize_name (some (str2c "Probe Gold Inc.")))) =
      MS2.normalize_name (some (str2c "Probe Gold Inc.")) :=
  ⟨c5_name_idem_amended.2.2.2.2.1 (str2c "Probe Gold Inc.") (by decide),
   c5_name_idem_amended.2.2.2.2.2 (str2c "Probe Gold Inc.") (by decide)⟩
